import Mathlib

/-!
Verification of the highlight-detection core of the
youtube-live-transcript-archiver repository.

The definitions below are a shallow embedding of the Python source:
`src/analyze.py` (MAD peak detection via `scipy.signal.find_peaks`,
composite highlight scoring, dynamic segment expansion, interval merging,
pipeline orchestration) and `main.py` (`robust_merge_ranges`).
Scores and thresholds are modelled with exact rationals, seconds with
integers, minute/bucket indices with naturals.
-/

/-!
The bundled library marks the `Rat` field operations `@[irreducible]`,
which blocks kernel evaluation (`decide`) of any embedded arithmetic.
The wrappers below implement the same operations through `Rat.divInt`
(which does reduce) and are each proved equal to the standard operation,
so the embedding can both be executed on concrete inputs and be reasoned
about algebraically.
-/

/-- Kernel-reducible rational addition; equal to `a + b` (see `qAdd_eq`). -/
def qAdd (a b : ℚ) : ℚ := Rat.divInt (a.num * b.den + b.num * a.den) ((a.den : ℤ) * b.den)

/-- Kernel-reducible rational subtraction; equal to `a - b` (see `qSub_eq`). -/
def qSub (a b : ℚ) : ℚ := Rat.divInt (a.num * b.den - b.num * a.den) ((a.den : ℤ) * b.den)

/-- Kernel-reducible rational multiplication; equal to `a * b` (see `qMul_eq`). -/
def qMul (a b : ℚ) : ℚ := Rat.divInt (a.num * b.num) ((a.den : ℤ) * b.den)

/-- Kernel-reducible rational division; equal to `a / b` (see `qDiv_eq`). -/
def qDiv (a b : ℚ) : ℚ := Rat.divInt (a.num * b.den) ((a.den : ℤ) * b.num)

/-- Kernel-reducible rational absolute value; equal to `|a|` (see `qAbs_eq`). -/
def qAbs (a : ℚ) : ℚ := if a < 0 then Rat.divInt (-a.num) a.den else a

theorem qAdd_eq (a b : ℚ) : qAdd a b = a + b := by
  have ha : ((a.den : ℤ)) ≠ 0 := by exact_mod_cast a.den_nz
  have hb : ((b.den : ℤ)) ≠ 0 := by exact_mod_cast b.den_nz
  rw [qAdd, ← Rat.divInt_add_divInt _ _ ha hb, Rat.num_divInt_den, Rat.num_divInt_den]

theorem qSub_eq (a b : ℚ) : qSub a b = a - b := by
  have ha : ((a.den : ℤ)) ≠ 0 := by exact_mod_cast a.den_nz
  have hb : ((b.den : ℤ)) ≠ 0 := by exact_mod_cast b.den_nz
  rw [qSub, ← Rat.divInt_sub_divInt _ _ ha hb, Rat.num_divInt_den, Rat.num_divInt_den]

theorem qMul_eq (a b : ℚ) : qMul a b = a * b := by
  rw [qMul, ← Rat.divInt_mul_divInt', Rat.num_divInt_den, Rat.num_divInt_den]

theorem qDiv_eq (a b : ℚ) : qDiv a b = a / b := by
  rw [qDiv, Rat.div_def']

theorem qAbs_eq (a : ℚ) : qAbs a = |a| := by
  rw [qAbs]
  split
  · rw [abs_of_neg (by assumption), Rat.neg_def]
  · rw [abs_of_nonneg (le_of_not_lt (by assumption))]

/-- Kernel-reducible sum of a list of rationals. -/
def qSum (l : List ℚ) : ℚ := l.foldr qAdd 0

theorem qSum_eq (l : List ℚ) : qSum l = l.sum := by
  induction l with
  | nil => rfl
  | cons a t ih => rw [qSum, List.foldr_cons, qAdd_eq, List.sum_cons, ← qSum, ih]

/-- Largest element of a list of rationals (`pandas` `series.max()`);
junk value `0` on the empty list, which the source never queries. -/
def maxOf (l : List ℚ) : ℚ :=
  match l with
  | [] => 0
  | h :: t => t.foldl max h

/-- Smallest element of a list of rationals (`pandas` `series.min()`);
junk value `0` on the empty list, which the source never queries. -/
def minOf (l : List ℚ) : ℚ :=
  match l with
  | [] => 0
  | h :: t => t.foldl min h

/-- `numpy.median`: sort ascending, take the middle element for odd
length and the mean of the two middle elements for even length.
(`numpy` returns NaN on the empty array without raising; the junk value
`0` here is never relied upon, because peak detection on a short series
is empty regardless of the threshold.) -/
def npMedian (l : List ℚ) : ℚ :=
  let s := List.insertionSort (· ≤ ·) l
  let n := l.length
  if n = 0 then 0
  else if n % 2 = 1 then s.getD (n / 2) 0
  else qDiv (qAdd (s.getD (n / 2 - 1) 0) (s.getD (n / 2) 0)) 2

/-- `scipy.stats.median_abs_deviation` with its default center (median)
and default scale `1.0`: the median of the absolute deviations from the
median. -/
def madRaw (l : List ℚ) : ℚ :=
  npMedian (l.map fun x => qAbs (qSub x (npMedian l)))

/-- Length of the leading run of elements equal to `v`. -/
def runLen (v : ℚ) : List ℚ → ℕ
  | [] => 0
  | a :: t => if a = v then runLen v t + 1 else 0

/-- The right edge of the plateau of equal values that starts at index
`r` in `x`: step right while the next sample exists and still equals
`v` (the inner `i_ahead` scan of `scipy.signal._local_maxima_1d`). -/
def plateauRight (x : List ℚ) (v : ℚ) (r : ℕ) : ℕ :=
  r + runLen v (x.drop (r + 1))

/-- One step of `scipy.signal.find_peaks` local-maximum detection at a
candidate plateau start `l`: a peak needs a strict rise into `l`, a
plateau of equal values `[l, r]`, and a strict fall after `r`; the
reported position is the plateau midpoint `(l + r) / 2` (rounded down),
exactly as `scipy.signal._local_maxima_1d` computes it. -/
def isPeakAt (x : List ℚ) (l : ℕ) : Option ℕ :=
  if 1 ≤ l ∧ l < x.length then
    if x.getD (l - 1) 0 < x.getD l 0 then
      if plateauRight x (x.getD l 0) l + 1 < x.length ∧
          x.getD (plateauRight x (x.getD l 0) l + 1) 0 < x.getD l 0 then
        some ((l + plateauRight x (x.getD l 0) l) / 2)
      else none
    else none
  else none

/-- All local maxima of `x` in ascending order
(`scipy.signal._local_maxima_1d`). -/
def localMaxima (x : List ℚ) : List ℕ :=
  (List.range x.length).filterMap (isPeakAt x)

/-- `scipy.signal.find_peaks(x, height=h)`: local maxima whose sample
value is at least `h` (scipy's height filter keeps peaks with
`peak_height >= height`, i.e. it is inclusive). -/
def find_peaks (x : List ℚ) (h : ℚ) : List ℕ :=
  (localMaxima x).filter (fun p => decide (h ≤ x.getD p 0))

/-- `detect_mad_peaks` from `src/analyze.py`: baseline = median, spread =
MAD with `0` replaced by `1`, threshold = `baseline + mad * multiplier`,
peaks via `scipy.signal.find_peaks` with that height. Returns the peak
index list together with the threshold. -/
def detect_mad_peaks (counts : List ℚ) (threshold_multiplier : ℚ) :
    List ℕ × ℚ :=
  let baseline := npMedian counts
  let mad0 := madRaw counts
  let mad := if mad0 = 0 then 1 else mad0
  let threshold := qAdd baseline (qMul mad threshold_multiplier)
  (find_peaks counts threshold, threshold)

example : detect_mad_peaks [2, 2, 2, 2, 2, 50, 2, 2, 2, 2] 1 = ([5], 3) := by decide
example : detect_mad_peaks [2, 2, 2, 2, 2, 50, 2, 2, 2, 2] 100 = ([], 102) := by decide
example : find_peaks [0, 6, 6, 6, 0, 0, 0] 1 = [2] := by decide
example : find_peaks [0, 3, 0] 3 = [1] := by decide

/-!  Interval merging (`merge_segments` in `src/analyze.py` and
`robust_merge_ranges` in `main.py`).  -/

/-- The left-to-right sweep of `merge_segments`: `(cs, ce)` is the running
accumulator; a next range whose start is within `g` of the current end is
absorbed (`end = max` of both ends), otherwise the accumulator is emitted
and restarted. -/
def mergeLoop (g : ℤ) : ℤ → ℤ → List (ℤ × ℤ) → List (ℤ × ℤ)
  | cs, ce, [] => [(cs, ce)]
  | cs, ce, (ns, ne) :: rest =>
    if ns ≤ ce + g then mergeLoop g cs (max ce ne) rest
    else (cs, ce) :: mergeLoop g ns ne rest

/-- `merge_segments` from `src/analyze.py`: sort by start (Python's
stable `list.sort(key=lambda x: x[0])`, modelled by the stable
`insertionSort` on the first component), then a single sweep.  No
clamping of starts is performed. -/
def merge_segments (segments : List (ℤ × ℤ)) (gap_threshold : ℤ) : List (ℤ × ℤ) :=
  match List.insertionSort (fun a b => a.1 ≤ b.1) segments with
  | [] => []
  | (s, e) :: rest => mergeLoop gap_threshold s e rest

/-- `MERGE_THRESHOLD` from `main.py`. -/
def MERGE_THRESHOLD : ℤ := 30

/-- The sweep of `robust_merge_ranges` in `main.py`: identical to
`mergeLoop` with gap `MERGE_THRESHOLD`, except that each emitted range
clamps its start to `max 0 _`. -/
def robustLoop : ℤ → ℤ → List (ℤ × ℤ) → List (ℤ × ℤ)
  | cs, ce, [] => [(max 0 cs, ce)]
  | cs, ce, (ns, ne) :: rest =>
    if ns ≤ ce + MERGE_THRESHOLD then robustLoop cs (max ce ne) rest
    else (max 0 cs, ce) :: robustLoop ns ne rest

/-- `robust_merge_ranges` from `main.py`: pad each peak time to
`(t - pad_pre, t + pad_post)`, sort (Python sorts the pairs
lexicographically; since both components are monotone in `t` this agrees
with the stable sort by start used here), then sweep with gap
`MERGE_THRESHOLD`, clamping emitted starts to `>= 0`. -/
def robust_merge_ranges (times : List ℤ) (pad_pre pad_post : ℤ) : List (ℤ × ℤ) :=
  match List.insertionSort (fun a b => a.1 ≤ b.1)
      (times.map fun t => (t - pad_pre, t + pad_post)) with
  | [] => []
  | (s, e) :: rest => robustLoop s e rest

example : merge_segments [(5, 20), (0, 10), (40, 50)] 10 = [(0, 20), (40, 50)] := by decide
example : merge_segments [(-5, 10)] 10 = [(-5, 10)] := by decide
example : robust_merge_ranges [100, 140] 120 60 = [(0, 200)] := by decide

/-!  Dynamic boundary expansion (`get_dynamic_segments` in
`src/analyze.py`).  Chat rows are represented by their minute indices
(the only column the function reads); `counts_series.get(m, 0)` is the
number of rows in minute `m`. -/

/-- The backward ramp-up scan: Python's
`for m in range(peak_min - 1, search_start - 1, -1)` with body
`start_min = m; if quiet m: break`, folded over the descending list of
walked minutes.  `cur` is the value of `start_min` entering the loop. -/
def rampLoop (quiet : ℕ → Bool) : ℕ → List ℕ → ℕ
  | cur, [] => cur
  | _, m :: rest => if quiet m then m else rampLoop quiet m rest

/-- The forward drop-off scan: Python's
`for m in range(peak_min + 1, search_end + 1)` tracking `quiet_streak`;
on `quiet_streak >= drop_off_confirm_mins` it returns
`m - quiet_streak + 1`, otherwise `end_min = m` and the loop continues.
`cur` is the value of `end_min` entering the loop. -/
def windLoop (quiet : ℕ → Bool) (confirm : ℕ) : ℕ → ℕ → List ℕ → ℕ
  | cur, _, [] => cur
  | _, streak, m :: rest =>
    let s := if quiet m then streak + 1 else 0
    if confirm ≤ s then m - s + 1
    else windLoop quiet confirm m s rest

/-- The descending list `[hi, hi-1, ..., lo]` (empty when `hi < lo`),
i.e. Python's `range(hi, lo - 1, -1)` for naturals. -/
def descRange (hi lo : ℕ) : List ℕ := (List.range' lo (hi + 1 - lo)).reverse

/-- The ascending list `[lo, ..., hi]` (empty when `hi < lo`),
i.e. Python's `range(lo, hi + 1)` for naturals. -/
def ascRange (lo hi : ℕ) : List ℕ := List.range' lo (hi + 1 - lo)

/-- `get_dynamic_segments` from `src/analyze.py`.  `minutes` is the
`minute` column of `chat_df` (each chat row contributes its minute
index); peak minutes are walked in sorted order; all second-level
arithmetic is over `ℤ` exactly as Python's unbounded ints.  The function
is only called with a non-empty `chat_df` (on an empty one Python's
`int(nan)` would raise); the `headD 0` defaults are junk values for that
unreachable case.  `int(chat_df["minute"].min())` is the head of the
sorted minute column: -/
def minMinute (minutes : List ℕ) : ℕ :=
  (List.insertionSort (· ≤ ·) minutes).headD 0

/-- `int(chat_df["minute"].max())` (junk `0` on the empty frame, where
Python would raise). -/
def maxMinute (minutes : List ℕ) : ℕ :=
  (List.insertionSort (· ≤ ·) minutes).getLastD 0

def get_dynamic_segments (peaks : List ℕ) (minutes : List ℕ) (baseline_median : ℚ)
    (buildup_window : ℕ) (winddown_window : ℕ)
    (min_pre_padding : ℤ) (min_post_padding : ℤ)
    (activity_multiplier : ℚ) (drop_off_confirm_mins : ℕ) : List (ℤ × ℤ) :=
  let minMin := minMinute minutes
  let maxMin := maxMinute minutes
  let activity_threshold := qMul baseline_median activity_multiplier
  let quiet : ℕ → Bool := fun m => decide ((minutes.count m : ℚ) < activity_threshold)
  (List.insertionSort (· ≤ ·) peaks).map fun (peak_min : ℕ) =>
    let peak_sec : ℤ := (peak_min : ℤ) * 60
    let search_start := max minMin (peak_min - buildup_window)
    let start_min := rampLoop quiet peak_min (descRange (peak_min - 1) search_start)
    let dynamic_start_sec : ℤ := (start_min : ℤ) * 60
    let safe_start_sec := peak_sec - min_pre_padding
    let final_start_sec := max ((minMin : ℤ) * 60) (min dynamic_start_sec safe_start_sec)
    let search_end := min maxMin (peak_min + winddown_window)
    let end_min := windLoop quiet drop_off_confirm_mins peak_min 0 (ascRange (peak_min + 1) search_end)
    let dynamic_end_sec : ℤ := ((end_min : ℤ) + 1) * 60
    let safe_end_sec := peak_sec + min_post_padding
    let final_end_sec := max dynamic_end_sec safe_end_sec
    (final_start_sec, final_end_sec)

example :
    get_dynamic_segments [8]
      [0, 1, 2, 3, 4, 5, 5, 6, 6, 7, 7, 8, 8, 8, 8, 8, 8, 8, 8, 8, 8, 9, 10, 11, 12]
      1 10 15 180 120 (Rat.divInt 3 2) 2 = [(240, 600)] := by decide

/-!  Pipeline orchestration (`process_chat_signals` in `src/analyze.py`).
A chat row is its minute index and message text; the external VADER
sentiment model is an opaque parameter `sent` mapping a message text to
its compound score (the source memoizes it per distinct text, which is
semantically the application of a pure function). -/

/-- One parsed chat row, as consumed by `process_chat_signals`. -/
structure ChatEvent where
  minute : ℕ
  message : String
deriving DecidableEq

/-- The sorted unique minute keys of `chat_df.groupby("minute")`. -/
def minuteKeys (events : List ChatEvent) : List ℕ :=
  (List.insertionSort (· ≤ ·) (events.map fun e => e.minute)).dedup

/-- The per-minute aggregation of step 2 of `process_chat_signals`:
for each minute key, `(minute, message_count, avg_sentiment)`. -/
def metricsOf (sent : String → ℚ) (events : List ChatEvent) : List (ℕ × ℚ × ℚ) :=
  (minuteKeys events).map fun m =>
    let msgs := events.filter fun e => e.minute == m
    (m, (msgs.length : ℚ), qDiv (qSum (msgs.map fun e => sent e.message)) (msgs.length : ℚ))

/-- The `normalize` helper of `calculate_highlight_scores`: min-max
normalization, with an all-equal series mapped to all zeros
(`series * 0`). -/
def normalizeSeries (xs : List ℚ) : List ℚ :=
  if maxOf xs = minOf xs then xs.map fun _ => 0
  else xs.map fun x => qDiv (qSub x (minOf xs)) (qSub (maxOf xs) (minOf xs))

/-- `calculate_highlight_scores` from `src/analyze.py`, restricted to the
`highlight_score` column it produces: the weighted sum of the normalized
count and sentiment columns. -/
def calculate_highlight_scores (counts sents : List ℚ) (activity_weight sentiment_weight : ℚ) :
    List ℚ :=
  List.zipWith (fun c s => qAdd (qMul activity_weight c) (qMul sentiment_weight s))
    (normalizeSeries counts) (normalizeSeries sents)

/-- Steps 1-4 of `process_chat_signals`: aggregate, score, detect MAD
peaks on the `highlight_score` series and translate peak positions back
to minute keys (`metrics.loc[peaks, "minute"]`). -/
def highlight_minutes (sent : String → ℚ) (events : List ChatEvent)
    (activity_weight sentiment_weight threshold_multiplier : ℚ) : List ℕ :=
  let metrics := metricsOf sent events
  let scores := calculate_highlight_scores (metrics.map fun r => r.2.1)
    (metrics.map fun r => r.2.2) activity_weight sentiment_weight
  ((detect_mad_peaks scores threshold_multiplier).1).map fun i =>
    (metrics.map fun r => r.1).getD i 0

/-- `process_chat_signals` from `src/analyze.py`: empty input returns
`[]` immediately; no detected highlight minutes returns `[]` before the
padding stage; otherwise dynamic expansion (with the source's default
parameters) followed by the merge with gap `10`. -/
def process_chat_signals (sent : String → ℚ) (events : List ChatEvent)
    (activity_weight sentiment_weight threshold_multiplier : ℚ) : List (ℤ × ℤ) :=
  if events = [] then []
  else
    let hm := highlight_minutes sent events activity_weight sentiment_weight threshold_multiplier
    if hm = [] then []
    else
      let baseline_median := npMedian ((metricsOf sent events).map fun r => r.2.1)
      merge_segments
        (get_dynamic_segments hm (events.map fun e => e.minute) baseline_median
          10 15 180 120 (Rat.divInt 3 2) 2) 10

/-- Modelled from the spec: the repository's Strategy A rolling Z-score
detector (spec section 4.3A) is implemented in the repository's root
`analyze.py`, which is not among the provided source files (only its
caller `process_chat_signals(chat_df, window_min=...)` in `main.py`
refers to it); this definition follows the spec's words.  For each
bucket `i`, over the trailing `window` buckets (at least `minPeriods`
populated buckets required), the rolling mean and sample standard
deviation (`ddof = 1`) of the counts are formed, a std of `0` or
undefined is substituted by `1`, and bucket `i` is a peak iff
`(count[i] - mean) / std > zThr`.  To stay in exact rational arithmetic
the square root is not taken: for `var > 0` the comparison
`(c - mean) / sqrt var > zThr` is encoded by its exact equivalent for a
nonnegative `zThr`, `c - mean > 0 ∧ zThr^2 * var < (c - mean)^2`. -/
def zscorePeaks (counts : List ℕ) (window minPeriods : ℕ) (zThr : ℚ) : List ℕ :=
  (List.range counts.length).filter fun i =>
    let vals := (counts.take (i + 1)).drop (i + 1 - window)
    let n := vals.length
    if n < minPeriods then false
    else
      let c : ℚ := (counts.getD i 0 : ℚ)
      let mean := qDiv ((vals.sum : ℕ) : ℚ) ((n : ℕ) : ℚ)
      let dev := qSub c mean
      let ssq := qSum (vals.map fun v => qMul (qSub ((v : ℕ) : ℚ) mean) (qSub ((v : ℕ) : ℚ) mean))
      let vr := qDiv ssq (((n - 1 : ℕ) : ℕ) : ℚ)
      if n ≤ 1 then decide (zThr < dev)
      else if vr = 0 then decide (zThr < dev)
      else decide (0 < dev ∧ qMul (qMul zThr zThr) vr < qMul dev dev)

set_option maxRecDepth 40000 in
example : zscorePeaks (List.replicate 100 5 ++ [500]) 20 10 3 = [100] := by decide

/-!  Lemmas about the merge sweep.  -/

instance : IsTotal (ℤ × ℤ) (fun a b => a.1 ≤ b.1) := ⟨fun a b => le_total a.1 b.1⟩

instance : IsTrans (ℤ × ℤ) (fun a b => a.1 ≤ b.1) := ⟨fun _ _ _ h1 h2 => le_trans h1 h2⟩

/-- The sweep's output is nonempty and begins with the running start. -/
theorem mergeLoop_head (g : ℤ) :
    ∀ (l : List (ℤ × ℤ)) (cs ce : ℤ), ∃ e t, mergeLoop g cs ce l = (cs, e) :: t
  | [], cs, ce => ⟨ce, [], rfl⟩
  | (ns, ne) :: rest, cs, ce => by
    rw [mergeLoop]
    split
    · exact mergeLoop_head g rest cs (max ce ne)
    · obtain ⟨e, t, h⟩ := mergeLoop_head g rest ns ne
      exact ⟨ce, mergeLoop g ns ne rest, rfl⟩

/-- Adjacent output ranges of the sweep are separated by more than `g`. -/
theorem mergeLoop_chain (g : ℤ) :
    ∀ (l : List (ℤ × ℤ)) (cs ce : ℤ),
      List.Chain' (fun a b => a.2 + g < b.1) (mergeLoop g cs ce l)
  | [], cs, ce => List.chain'_singleton _
  | (ns, ne) :: rest, cs, ce => by
    rw [mergeLoop]
    split
    · exact mergeLoop_chain g rest cs (max ce ne)
    · rename_i hgap
      obtain ⟨e, t, hh⟩ := mergeLoop_head g rest ns ne
      rw [List.chain'_cons']
      refine ⟨?_, mergeLoop_chain g rest ns ne⟩
      intro b hb
      rw [hh] at hb
      simp only [List.head?_cons, Option.mem_def, Option.some.injEq] at hb
      subst hb
      simpa using lt_of_not_le hgap

/-- The starts emitted by the sweep are the running start followed by a
sublist of the input starts. -/
theorem mergeLoop_starts (g : ℤ) :
    ∀ (l : List (ℤ × ℤ)) (cs ce : ℤ),
      ∃ t, (mergeLoop g cs ce l).map Prod.fst = cs :: t ∧
        t.Sublist (l.map Prod.fst)
  | [], cs, ce => ⟨[], rfl, List.nil_sublist _⟩
  | (ns, ne) :: rest, cs, ce => by
    rw [mergeLoop]
    split
    · obtain ⟨t, h1, h2⟩ := mergeLoop_starts g rest cs (max ce ne)
      exact ⟨t, h1, h2.trans (List.sublist_cons_self _ _)⟩
    · obtain ⟨t, h1, h2⟩ := mergeLoop_starts g rest ns ne
      refine ⟨ns :: t, ?_, ?_⟩
      · simp only [List.map_cons, h1]
      · exact h2.cons₂ ns

/-- Sortedness by start is preserved by the sweep. -/
theorem mergeLoop_sorted (g : ℤ) (l : List (ℤ × ℤ)) (cs ce : ℤ)
    (hl : (l.map Prod.fst).Sorted (· ≤ ·)) (hcs : ∀ x ∈ l, cs ≤ x.1) :
    ((mergeLoop g cs ce l).map Prod.fst).Sorted (· ≤ ·) := by
  obtain ⟨t, h1, h2⟩ := mergeLoop_starts g l cs ce
  rw [h1]
  rw [List.sorted_cons]
  refine ⟨?_, hl.sublist h2⟩
  intro b hb
  have hb' : b ∈ l.map Prod.fst := h2.mem hb
  obtain ⟨x, hx, rfl⟩ := List.mem_map.mp hb'
  exact hcs x hx

/-- Every input range of the sweep (including the accumulator) is covered
by an output range that starts no later and ends no earlier. -/
theorem mergeLoop_cover (g : ℤ) :
    ∀ (l : List (ℤ × ℤ)) (cs ce : ℤ),
      l.Pairwise (fun a b => a.1 ≤ b.1) → (∀ x ∈ l, cs ≤ x.1) →
      (∃ e', (cs, e') ∈ mergeLoop g cs ce l ∧ ce ≤ e') ∧
        ∀ x ∈ l, ∃ y ∈ mergeLoop g cs ce l, y.1 ≤ x.1 ∧ x.2 ≤ y.2
  | [], cs, ce, _, _ => ⟨⟨ce, by simp [mergeLoop], le_refl ce⟩, by simp⟩
  | (ns, ne) :: rest, cs, ce, hp, hcs => by
    have hns : cs ≤ ns := hcs (ns, ne) (List.mem_cons_self _ _)
    have hrest : ∀ x ∈ rest, ns ≤ x.1 := fun x hx => (List.pairwise_cons.mp hp).1 x hx
    have hrest' : ∀ x ∈ rest, cs ≤ x.1 := fun x hx => le_trans hns (hrest x hx)
    rw [mergeLoop]
    split
    · obtain ⟨⟨e', he', hee⟩, hcov⟩ :=
        mergeLoop_cover g rest cs (max ce ne) (List.pairwise_cons.mp hp).2 hrest'
      refine ⟨⟨e', he', le_trans (le_max_left _ _) hee⟩, ?_⟩
      intro x hx
      rcases List.mem_cons.mp hx with rfl | hx'
      · exact ⟨(cs, e'), he', hns, le_trans (le_max_right _ _) hee⟩
      · exact hcov x hx'
    · obtain ⟨⟨e', he', hee⟩, hcov⟩ :=
        mergeLoop_cover g rest ns ne (List.pairwise_cons.mp hp).2 hrest
      refine ⟨⟨ce, List.mem_cons_self _ _, le_refl ce⟩, ?_⟩
      intro x hx
      rcases List.mem_cons.mp hx with rfl | hx'
      · exact ⟨(ns, e'), List.mem_cons_of_mem _ he', le_refl _, hee⟩
      · obtain ⟨y, hy, hy1, hy2⟩ := hcov x hx'
        exact ⟨y, List.mem_cons_of_mem _ hy, hy1, hy2⟩

/-- A sweep over input already separated by more than `g` changes nothing. -/
theorem mergeLoop_no_merge (g : ℤ) :
    ∀ (l : List (ℤ × ℤ)) (cs ce : ℤ),
      List.Chain' (fun a b => a.2 + g < b.1) ((cs, ce) :: l) →
      mergeLoop g cs ce l = (cs, ce) :: l
  | [], cs, ce, _ => rfl
  | (ns, ne) :: rest, cs, ce, h => by
    have h1 : ce + g < ns := (List.chain'_cons.mp h).1
    have h2 := (List.chain'_cons.mp h).2
    rw [mergeLoop, if_neg (not_le_of_lt h1), mergeLoop_no_merge g rest ns ne h2]

/-- `robustLoop` is `mergeLoop` with emitted starts clamped to `>= 0`. -/
theorem robustLoop_eq :
    ∀ (l : List (ℤ × ℤ)) (cs ce : ℤ),
      robustLoop cs ce l =
        (mergeLoop MERGE_THRESHOLD cs ce l).map fun p => (max 0 p.1, p.2)
  | [], cs, ce => rfl
  | (ns, ne) :: rest, cs, ce => by
    rw [robustLoop, mergeLoop]
    split
    · exact robustLoop_eq rest cs (max ce ne)
    · rw [List.map_cons, robustLoop_eq rest ns ne]

/-- Helper: the sorted-by-start property of the presorted input list. -/
theorem sortedByStart (l : List (ℤ × ℤ)) :
    (List.insertionSort (fun a b => a.1 ≤ b.1) l).Pairwise fun a b => a.1 ≤ b.1 :=
  List.sorted_insertionSort (fun (a b : ℤ × ℤ) => a.1 ≤ b.1) l

/-- Output facts for `merge_segments`, for any input and gap: starts are
sorted, adjacent gaps exceed `g`, and every input range is covered by an
output range spanning it on both sides that merging could have produced. -/
theorem merge_segments_facts (segments : List (ℤ × ℤ)) (g : ℤ) :
    ((merge_segments segments g).map Prod.fst).Sorted (· ≤ ·) ∧
      List.Chain' (fun a b => g < b.1 - a.2) (merge_segments segments g) ∧
      ∀ x ∈ segments, ∃ y ∈ merge_segments segments g, y.1 ≤ x.1 ∧ x.2 ≤ y.2 := by
  unfold merge_segments
  have hperm := List.perm_insertionSort (fun a b : ℤ × ℤ => a.1 ≤ b.1) segments
  have hsorted := sortedByStart segments
  cases hs : List.insertionSort (fun a b : ℤ × ℤ => a.1 ≤ b.1) segments with
  | nil =>
    refine ⟨List.sorted_nil, List.chain'_nil, ?_⟩
    intro x hx
    rw [hs] at hperm
    exact absurd (hperm.symm.mem_iff.mp hx) (List.not_mem_nil x)
  | cons s0 rest =>
    obtain ⟨s, e⟩ := s0
    rw [hs] at hsorted hperm
    have hpair := List.pairwise_cons.mp hsorted
    have hchain := mergeLoop_chain g rest s e
    refine ⟨?_, ?_, ?_⟩
    · refine mergeLoop_sorted g rest s e ?_ hpair.1
      exact (List.pairwise_map).mpr hpair.2
    · refine hchain.imp ?_
      intro a b h
      omega
    · intro x hx
      have hx' : x ∈ (s, e) :: rest := hperm.symm.mem_iff.mp hx
      obtain ⟨⟨e', he', hee⟩, hcov⟩ := mergeLoop_cover g rest s e hpair.2 hpair.1
      rcases List.mem_cons.mp hx' with rfl | hx''
      · exact ⟨(s, e'), he', le_refl _, hee⟩
      · exact hcov x hx''

/-- Output facts for `robust_merge_ranges`: starts sorted, adjacent gaps
exceed `MERGE_THRESHOLD`. -/
theorem robust_merge_ranges_facts (times : List ℤ) (pre post : ℤ) :
    ((robust_merge_ranges times pre post).map Prod.fst).Sorted (· ≤ ·) ∧
      List.Chain' (fun a b => MERGE_THRESHOLD < b.1 - a.2)
        (robust_merge_ranges times pre post) := by
  unfold robust_merge_ranges
  have hsorted := sortedByStart (times.map fun t => (t - pre, t + post))
  cases hs : List.insertionSort (fun a b : ℤ × ℤ => a.1 ≤ b.1)
      (times.map fun t => (t - pre, t + post)) with
  | nil => exact ⟨List.sorted_nil, List.chain'_nil⟩
  | cons s0 rest =>
    obtain ⟨s, e⟩ := s0
    rw [hs] at hsorted
    have hpair := List.pairwise_cons.mp hsorted
    dsimp only
    rw [robustLoop_eq]
    constructor
    · have hst := mergeLoop_sorted MERGE_THRESHOLD rest s e
        ((List.pairwise_map).mpr hpair.2) hpair.1
      rw [List.map_map]
      have : (Prod.fst ∘ fun p : ℤ × ℤ => (max 0 p.1, p.2)) = (fun p : ℤ × ℤ => max 0 p.1) := rfl
      rw [this]
      have hst' : ((mergeLoop MERGE_THRESHOLD s e rest).map Prod.fst).Pairwise (· ≤ ·) := hst
      have := ((List.pairwise_map).mp hst').imp
        (fun h => max_le_max (le_refl (0 : ℤ)) h)
      exact (List.pairwise_map).mpr this
    · have hch := mergeLoop_chain MERGE_THRESHOLD rest s e
      rw [List.chain'_map]
      refine hch.imp ?_
      intro a b h
      have : (b.1 : ℤ) ≤ max 0 b.1 := le_max_right _ _
      simp only
      omega

/-- C3: for every (possibly unordered, overlapping) range list and every
gap threshold `g`, `merge_segments` returns a sequence sorted ascending
by start whose adjacent pairs satisfy `start_next - end_prev > g`, and in
which every input range has been absorbed into an output range spanning
it (start no later, end no earlier, i.e. merged ends are the max of the
ends of the merged group); the padded-peak variant `robust_merge_ranges`
likewise returns a start-sorted sequence whose adjacent gaps exceed its
`MERGE_THRESHOLD` gap. -/
theorem c3_merge_sorted_disjoint :
    (∀ (segments : List (ℤ × ℤ)) (g : ℤ),
        ((merge_segments segments g).map Prod.fst).Sorted (· ≤ ·) ∧
          List.Chain' (fun a b => g < b.1 - a.2) (merge_segments segments g) ∧
          ∀ x ∈ segments, ∃ y ∈ merge_segments segments g, y.1 ≤ x.1 ∧ x.2 ≤ y.2) ∧
      ∀ (times : List ℤ) (pre post : ℤ),
        ((robust_merge_ranges times pre post).map Prod.fst).Sorted (· ≤ ·) ∧
          List.Chain' (fun a b => MERGE_THRESHOLD < b.1 - a.2)
            (robust_merge_ranges times pre post) :=
  ⟨merge_segments_facts, robust_merge_ranges_facts⟩

/-- Witness for C3 at a concrete input: the overlapping range `(5, 20)`
is covered by an output range of the merge of `[(0, 10), (5, 20)]`. -/
theorem c3_witness :
    ∃ y ∈ merge_segments [(0, 10), (5, 20)] 3, y.1 ≤ (5 : ℤ) ∧ (20 : ℤ) ≤ y.2 :=
  (c3_merge_sorted_disjoint.1 [(0, 10), (5, 20)] 3).2.2 (5, 20) (by decide)

/-- C4: interval merging is idempotent: re-merging the output of
`merge_segments` with the same gap threshold returns it unchanged. -/
theorem c4_merge_idempotent (R : List (ℤ × ℤ)) (g : ℤ) :
    merge_segments (merge_segments R g) g = merge_segments R g := by
  obtain ⟨hsorted, hchain, -⟩ := merge_segments_facts R g
  have hpw : (merge_segments R g).Pairwise (fun a b => a.1 ≤ b.1) :=
    (List.pairwise_map).mp hsorted
  have hss : List.insertionSort (fun a b : ℤ × ℤ => a.1 ≤ b.1) (merge_segments R g) =
      merge_segments R g := List.Sorted.insertionSort_eq hpw
  conv_lhs => rw [merge_segments, hss]
  cases ho : merge_segments R g with
  | nil => rfl
  | cons s0 rest =>
    obtain ⟨s, e⟩ := s0
    dsimp only
    rw [ho] at hchain
    refine mergeLoop_no_merge g rest s e (hchain.imp ?_)
    intro a b h
    omega

/-- C8 counterexample: `merge_segments` on the single negative-start
range `(-5, 10)` returns it unchanged, not clamped to `(0, 10)` as the
claim states. -/
theorem c8_counterexample :
    merge_segments [(-5, 10)] 10 = [(-5, 10)] ∧
      merge_segments [(-5, 10)] 10 ≠ [(0, 10)] := by decide

/-- C8 amended: `merge_segments` returns a singleton input exactly
unchanged (its start is not clamped); the `>= 0` clamping of starts
happens only in `robust_merge_ranges`, whose output for a single peak
time `t` is `[(max 0 (t - pad_pre), t + pad_post)]`. -/
theorem c8_single_range :
    (∀ s e g : ℤ, merge_segments [(s, e)] g = [(s, e)]) ∧
      ∀ t pre post : ℤ, robust_merge_ranges [t] pre post =
        [(max 0 (t - pre), t + post)] := by
  constructor
  · intro s e g
    rfl
  · intro t pre post
    rfl

/-!  Characterization of the embedded `scipy.signal.find_peaks`.  -/

theorem drop_getD (x : List ℚ) (n j : ℕ) :
    (x.drop n).getD j 0 = x.getD (n + j) 0 := by
  simp [List.getD_eq_getElem?_getD, List.getElem?_drop]

theorem runLen_le (v : ℚ) : ∀ t : List ℚ, runLen v t ≤ t.length
  | [] => le_refl 0
  | a :: t => by
    rw [runLen]
    split
    · simpa using runLen_le v t
    · simp

theorem runLen_mem (v : ℚ) : ∀ (t : List ℚ) (j : ℕ), j < runLen v t → t.getD j 0 = v
  | [], j, h => by simp [runLen] at h
  | a :: t, j, h => by
    rw [runLen] at h
    split at h
    · cases j with
      | zero => simpa [List.getD_cons_zero] using (by assumption : a = v)
      | succ j' =>
        rw [List.getD_cons_succ]
        exact runLen_mem v t j' (by omega)
    · omega

theorem runLen_stop (v : ℚ) :
    ∀ t : List ℚ, runLen v t = t.length ∨ t.getD (runLen v t) 0 ≠ v
  | [] => Or.inl rfl
  | a :: t => by
    rw [runLen]
    split
    · rcases runLen_stop v t with h | h
      · exact Or.inl (by simp [h])
      · exact Or.inr (by simpa [List.getD_cons_succ] using h)
    · exact Or.inr (by simpa [List.getD_cons_zero] using (by assumption : ¬a = v))

theorem runLen_eq_of (v : ℚ) :
    ∀ (t : List ℚ) (k : ℕ), k ≤ t.length → (∀ j, j < k → t.getD j 0 = v) →
      (k = t.length ∨ t.getD k 0 ≠ v) → runLen v t = k
  | [], k, hk, _, _ => by
    simp only [List.length_nil, Nat.le_zero] at hk
    simp [runLen, hk]
  | a :: t, k, hk, hall, hstop => by
    cases k with
    | zero =>
      rw [runLen]
      split
      · rename_i hav
        rcases hstop with h | h
        · simp at h
        · exact absurd (by simpa [List.getD_cons_zero] using hav) h
      · rfl
    | succ k' =>
      have hav : a = v := by simpa [List.getD_cons_zero] using hall 0 (Nat.succ_pos k')
      rw [runLen, if_pos hav]
      have : runLen v t = k' := by
        refine runLen_eq_of v t k' (by simpa using hk) ?_ ?_
        · intro j hj
          simpa [List.getD_cons_succ] using hall (j + 1) (by omega)
        · rcases hstop with h | h
          · exact Or.inl (by simpa using h)
          · exact Or.inr (by simpa [List.getD_cons_succ] using h)
      omega

/-- The plateau-peak shape at positions `[l, r]` of a series `x`: a
strict rise into `l`, equal values through `r`, and a strict fall after
`r` (all indices interior). -/
def IsPlateauPeak (x : List ℚ) (l r : ℕ) : Prop :=
  1 ≤ l ∧ l ≤ r ∧ r + 1 < x.length ∧
    x.getD (l - 1) 0 < x.getD l 0 ∧
    (∀ j, l ≤ j → j ≤ r → x.getD j 0 = x.getD l 0) ∧
    x.getD (r + 1) 0 < x.getD l 0

theorem isPeakAt_eq_some_iff (x : List ℚ) (l p : ℕ) :
    isPeakAt x l = some p ↔ ∃ r, IsPlateauPeak x l r ∧ p = (l + r) / 2 := by
  constructor
  · intro h
    rw [isPeakAt] at h
    split at h
    swap
    · exact absurd h (by simp)
    split at h
    swap
    · exact absurd h (by simp)
    split at h
    swap
    · exact absurd h (by simp)
    rename_i hbound hrise hfall
    refine ⟨plateauRight x (x.getD l 0) l, ⟨hbound.1, ?_, hfall.1, hrise, ?_, hfall.2⟩, ?_⟩
    · rw [plateauRight]
      omega
    · intro j hlj hjr
      rcases Nat.eq_or_lt_of_le hlj with rfl | hlj'
      · rfl
      · rw [plateauRight] at hjr
        have hj' : j - (l + 1) < runLen (x.getD l 0) (x.drop (l + 1)) := by omega
        have := runLen_mem (x.getD l 0) (x.drop (l + 1)) (j - (l + 1)) hj'
        rwa [drop_getD, Nat.add_sub_cancel' (by omega : l + 1 ≤ j)] at this
    · exact ((Option.some.injEq _ _).mp h).symm
  · rintro ⟨r, ⟨h1, h2, h3, h4, h5, h6⟩, rfl⟩
    have hrr : plateauRight x (x.getD l 0) l = r := by
      rw [plateauRight]
      have hlen : (x.drop (l + 1)).length = x.length - (l + 1) := List.length_drop _ _
      have : runLen (x.getD l 0) (x.drop (l + 1)) = r - l := by
        refine runLen_eq_of (x.getD l 0) (x.drop (l + 1)) (r - l) ?_ ?_ ?_
        · rw [hlen]
          omega
        · intro j hj
          rw [drop_getD]
          exact h5 (l + 1 + j) (by omega) (by omega)
        · refine Or.inr ?_
          rw [drop_getD]
          have : l + 1 + (r - l) = r + 1 := by omega
          rw [this]
          exact ne_of_lt h6
      omega
    rw [isPeakAt, if_pos ⟨h1, by omega⟩, if_pos h4, hrr, if_pos ⟨h3, h6⟩]

theorem mem_find_peaks_iff (x : List ℚ) (h : ℚ) (p : ℕ) :
    p ∈ find_peaks x h ↔
      ∃ l r, IsPlateauPeak x l r ∧ p = (l + r) / 2 ∧ h ≤ x.getD l 0 := by
  rw [find_peaks, List.mem_filter, localMaxima, List.mem_filterMap]
  constructor
  · rintro ⟨⟨l, hl, hpk⟩, hht⟩
    obtain ⟨r, hplat, rfl⟩ := (isPeakAt_eq_some_iff x l _).mp hpk
    obtain ⟨h1, h2, h3, h4, h5, h6⟩ := hplat
    refine ⟨l, r, ⟨h1, h2, h3, h4, h5, h6⟩, rfl, ?_⟩
    have hmid1 : l ≤ (l + r) / 2 := by omega
    have hmid2 : (l + r) / 2 ≤ r := by omega
    have heq := h5 ((l + r) / 2) hmid1 hmid2
    rw [← heq]
    simpa using hht
  · rintro ⟨l, r, hplat, rfl, hht⟩
    obtain ⟨h1, h2, h3, h4, h5, h6⟩ := hplat
    refine ⟨⟨l, ?_, (isPeakAt_eq_some_iff x l _).mpr ⟨r, ⟨h1, h2, h3, h4, h5, h6⟩, rfl⟩⟩, ?_⟩
    · exact List.mem_range.mpr (by omega)
    · have hmid1 : l ≤ (l + r) / 2 := by omega
      have hmid2 : (l + r) / 2 ≤ r := by omega
      have heq := h5 ((l + r) / 2) hmid1 hmid2
      simp only [decide_eq_true_eq]
      rw [heq]
      exact hht

/-- C2 counterexample: on `[0, 6, 6, 6, 0, 0, 0]` (threshold computes to
`1`) the qualifying plateau spans indices `1..3` and `detect_mad_peaks`
reports the midpoint `2`, not the first qualifying sample `1` as the
claim states; and on `[0, 3, 0]` (threshold computes to `3`) the sample
equal to — not exceeding — the threshold is still flagged, while the
claim's strict reading would flag nothing. -/
theorem c2_counterexample :
    (detect_mad_peaks [0, 6, 6, 6, 0, 0, 0] 1).1 = [2] ∧
      (detect_mad_peaks [0, 6, 6, 6, 0, 0, 0] 1).1 ≠ [1] ∧
      (detect_mad_peaks [0, 3, 0] 3).2 = 3 ∧
      (detect_mad_peaks [0, 3, 0] 3).1 = [1] := by decide

/-- C2 amended: a sample index is reported by the MAD detector iff it is
the floor-midpoint of a plateau-shaped local maximum (strict rise into
the plateau, strict fall after it) whose value is at least (inclusively)
the detector's threshold; for a plateau of equal adjacent values, the
reported position is therefore the midpoint of the plateau, rounded
down, not its first sample. -/
theorem c2_peak_characterization (counts : List ℚ) (threshold_multiplier : ℚ) (p : ℕ) :
    p ∈ (detect_mad_peaks counts threshold_multiplier).1 ↔
      ∃ l r, IsPlateauPeak counts l r ∧ p = (l + r) / 2 ∧
        (detect_mad_peaks counts threshold_multiplier).2 ≤ counts.getD l 0 :=
  mem_find_peaks_iff counts _ p

/-- C10: every peak index reported by `detect_mad_peaks` is strictly
interior to the series: never index `0` and never the last index, even
when an endpoint holds the unique maximum above the threshold. -/
theorem c10_peaks_interior (counts : List ℚ) (threshold_multiplier : ℚ) (p : ℕ)
    (hp : p ∈ (detect_mad_peaks counts threshold_multiplier).1) :
    1 ≤ p ∧ p + 1 < counts.length := by
  obtain ⟨l, r, hplat, rfl, -⟩ := (mem_find_peaks_iff counts _ p).mp hp
  obtain ⟨h1, h2, h3, -, -, -⟩ := hplat
  omega

/-- Witness for C10: the peak reported on `[2,2,2,2,2,50,2,2,2,2]` is
interior. -/
theorem c10_witness :
    (5 : ℕ) ∈ (detect_mad_peaks [2, 2, 2, 2, 2, 50, 2, 2, 2, 2] 1).1 ∧
      1 ≤ 5 ∧ 5 + 1 < ([2, 2, 2, 2, 2, 50, 2, 2, 2, 2] : List ℚ).length :=
  ⟨by decide, c10_peaks_interior [2, 2, 2, 2, 2, 50, 2, 2, 2, 2] 1 5 (by decide)⟩

/-- C6: on the count series `[2,2,2,2,2,50,2,2,2,2]` the MAD is zero and
is substituted by `1`; with multiplier `1` the detector returns exactly
one peak, at index `5` (threshold `3`), and with multiplier `100`
(threshold `102`) it returns none. -/
theorem c6_mad_scenario :
    madRaw [2, 2, 2, 2, 2, 50, 2, 2, 2, 2] = 0 ∧
      detect_mad_peaks [2, 2, 2, 2, 2, 50, 2, 2, 2, 2] 1 = ([5], 3) ∧
      detect_mad_peaks [2, 2, 2, 2, 2, 50, 2, 2, 2, 2] 100 = ([], 102) := by decide

set_option maxRecDepth 40000 in
/-- C9: the rolling Z-score detector (modelled from the spec, Strategy A)
on a series flat at 5 for 100 buckets followed by one bucket at 500,
with window 20, `min_periods` 10 and z-threshold 3, flags exactly the
bucket holding 500 (index 100). -/
theorem c9_zscore_scenario :
    zscorePeaks (List.replicate 100 5 ++ [500]) 20 10 3 = [100] := by decide

/-!  Characterization of the ramp-up and drop-off scans.  -/

theorem descRange_cons (m lo : ℕ) (h : lo ≤ m) :
    descRange m lo = m :: (List.range' lo (m - lo)).reverse := by
  rw [descRange]
  have h1 : m + 1 - lo = (m - lo) + 1 := by omega
  rw [h1, List.range'_concat]
  have h2 : lo + 1 * (m - lo) = m := by omega
  rw [h2, List.reverse_append]
  rfl

theorem descRange_step (m lo : ℕ) (h : lo < m) :
    (List.range' lo (m - lo)).reverse = descRange (m - 1) lo := by
  rw [descRange]
  have : m - 1 + 1 - lo = m - lo := by omega
  rw [this]

theorem ascRange_cons (m hi : ℕ) (h : m ≤ hi) :
    ascRange m hi = m :: ascRange (m + 1) hi := by
  rw [ascRange, ascRange]
  have h1 : hi + 1 - m = (hi + 1 - (m + 1)) + 1 := by omega
  rw [h1, List.range'_succ]

theorem ascRange_nil (m hi : ℕ) (h : hi < m) : ascRange m hi = [] := by
  rw [ascRange]
  have : hi + 1 - m = 0 := by omega
  rw [this]
  rfl

/-- The backward scan `rampLoop` over the descending walk `[m, ..., lo]`
lands on the first minute (from above) satisfying `quiet`, or on `lo`
when none does; all minutes strictly above the landing point inside the
walk are non-quiet. -/
theorem rampLoop_desc_spec (quiet : ℕ → Bool) (lo : ℕ) :
    ∀ (m cur : ℕ), lo ≤ m →
      (lo ≤ rampLoop quiet cur (descRange m lo) ∧
        rampLoop quiet cur (descRange m lo) ≤ m) ∧
      (∀ j, rampLoop quiet cur (descRange m lo) < j → j ≤ m → quiet j = false) ∧
      (quiet (rampLoop quiet cur (descRange m lo)) = true ∨
        rampLoop quiet cur (descRange m lo) = lo)
  | m, cur, hlm => by
    have hr : rampLoop quiet cur (descRange m lo) =
        if quiet m then m
        else rampLoop quiet m ((List.range' lo (m - lo)).reverse) := by
      rw [descRange_cons m lo hlm, rampLoop]
    cases hq : quiet m with
    | true =>
      rw [hq, if_pos rfl] at hr
      rw [hr]
      exact ⟨⟨hlm, le_refl m⟩, fun j h1 h2 => by omega, Or.inl hq⟩
    | false =>
      rw [hq, if_neg (by simp)] at hr
      rcases Nat.eq_or_lt_of_le hlm with heq | hlt
      · have h0 : m - lo = 0 := by omega
        rw [h0] at hr
        simp only [List.range'_zero, List.reverse_nil, rampLoop] at hr
        rw [hr]
        exact ⟨⟨le_of_eq heq, le_refl m⟩, fun j h1 h2 => by omega, Or.inr (by omega)⟩
      · rw [descRange_step m lo hlt] at hr
        have hlm' : lo ≤ m - 1 := by omega
        obtain ⟨⟨ih1, ih2⟩, ih3, ih4⟩ := rampLoop_desc_spec quiet lo (m - 1) m hlm'
        rw [hr]
        refine ⟨⟨ih1, by omega⟩, ?_, ih4⟩
        intro j h1 h2
        rcases Nat.eq_or_lt_of_le h2 with rfl | hj
        · exact hq
        · exact ih3 j h1 (by omega)
  termination_by m _ _ => m

/-- A confirmed quiet window ending at minute `m`: the `confirm` minutes
`m - confirm + 1, ..., m` are all quiet. -/
def ConfWin (quiet : ℕ → Bool) (confirm m : ℕ) : Prop :=
  ∀ j, m + 1 ≤ j + confirm → j ≤ m → quiet j = true

/-- The forward scan `windLoop` over the ascending walk `[m, ..., hi]`:
under the loop invariants (the current streak is the maximal quiet run
ending just below `m`, confined to minutes above `p`, still shorter than
`confirm`, and no confirmed window ends before `m`), the scan returns
`mstar - confirm + 1` for the earliest confirmed window end
`mstar ≤ hi` (at least `confirm` minutes above `p`), or `hi` if no
window inside the walk is ever confirmed. -/
theorem windLoop_asc_spec (quiet : ℕ → Bool) (confirm p hi : ℕ) (hc : 1 ≤ confirm) :
    ∀ (m streak : ℕ), p + 1 ≤ m → m ≤ hi →
      streak + p + 1 ≤ m →
      streak < confirm →
      (∀ j, m - streak ≤ j → j < m → quiet j = true) →
      (streak + p + 1 = m ∨ quiet (m - streak - 1) = false) →
      (∀ m', p + confirm ≤ m' → m' < m → ¬ ConfWin quiet confirm m') →
      (∃ mstar, m ≤ mstar ∧ mstar ≤ hi ∧ p + confirm ≤ mstar ∧
          ConfWin quiet confirm mstar ∧
          (∀ m', p + confirm ≤ m' → m' < mstar → ¬ ConfWin quiet confirm m') ∧
          windLoop quiet confirm (m - 1) streak (ascRange m hi) = mstar - confirm + 1) ∨
        ((∀ m', p + confirm ≤ m' → m' ≤ hi → ¬ ConfWin quiet confirm m') ∧
          windLoop quiet confirm (m - 1) streak (ascRange m hi) = hi)
  | m, streak, hpm, hmhi, hsm, hsc, hwin, hmaxi, hnoc => by
    have hw : windLoop quiet confirm (m - 1) streak (ascRange m hi) =
        (if confirm ≤ (if quiet m then streak + 1 else 0)
          then m - (if quiet m then streak + 1 else 0) + 1
          else windLoop quiet confirm m (if quiet m then streak + 1 else 0)
            (ascRange (m + 1) hi)) := by
      rw [ascRange_cons m hi hmhi, windLoop]
    cases hq : quiet m with
    | true =>
      rw [hq, if_pos rfl] at hw
      by_cases hbreak : confirm ≤ streak + 1
      · have hse : streak + 1 = confirm := by omega
        rw [if_pos hbreak] at hw
        refine Or.inl ⟨m, le_refl m, hmhi, by omega, ?_, hnoc, by omega⟩
        intro j hj1 hj2
        rcases Nat.eq_or_lt_of_le hj2 with heq | hj3
        · rw [heq]
          exact hq
        · exact hwin j (by omega) hj3
      · rw [if_neg hbreak] at hw
        have hnotm : p + confirm ≤ m → ¬ ConfWin quiet confirm m := by
          intro hpc hcw
          rcases hmaxi with he | hf
          · omega
          · exact absurd (hcw (m - streak - 1) (by omega) (by omega)) (by simp [hf])
        rcases Nat.eq_or_lt_of_le hmhi with heq | hlt
        · rw [ascRange_nil (m + 1) hi (by omega)] at hw
          have hbase : windLoop quiet confirm m (streak + 1) ([] : List ℕ) = m := rfl
          rw [hbase] at hw
          refine Or.inr ⟨?_, by omega⟩
          intro m' h1 h2
          rcases Nat.eq_or_lt_of_le h2 with he2 | h3
          · rw [← heq] at he2
            rw [he2]
            exact hnotm (by omega)
          · exact hnoc m' h1 (by omega)
        · have ih := windLoop_asc_spec quiet confirm p hi hc (m + 1) (streak + 1)
            (by omega) (by omega) (by omega) (by omega)
            (by
              intro j hj1 hj2
              rcases Nat.eq_or_lt_of_le (by omega : j ≤ m) with he | hl
              · rw [he]; exact hq
              · exact hwin j (by omega) hl)
            (by
              rcases hmaxi with he | hf
              · exact Or.inl (by omega)
              · refine Or.inr ?_
                have : m + 1 - (streak + 1) - 1 = m - streak - 1 := by omega
                rw [this]
                exact hf)
            (by
              intro m' h1 h2
              rcases Nat.eq_or_lt_of_le (by omega : m' ≤ m) with he | hl
              · rw [he]; exact hnotm (by omega)
              · exact hnoc m' h1 hl)
          have hstep : windLoop quiet confirm (m + 1 - 1) (streak + 1) (ascRange (m + 1) hi) =
              windLoop quiet confirm m (streak + 1) (ascRange (m + 1) hi) := by
            have : m + 1 - 1 = m := by omega
            rw [this]
          rw [hstep] at ih
          rw [hw]
          rcases ih with ⟨mstar, a1, a2, a3, a4, a5, a6⟩ | ⟨b1, b2⟩
          · exact Or.inl ⟨mstar, by omega, a2, a3, a4, a5, a6⟩
          · exact Or.inr ⟨b1, b2⟩
    | false =>
      rw [hq] at hw
      rw [if_neg (by simp : ¬(false = true))] at hw
      rw [if_neg (by omega : ¬(confirm ≤ 0))] at hw
      have hnotm : ¬ ConfWin quiet confirm m := by
        intro hcw
        exact absurd (hcw m (by omega) (le_refl m)) (by simp [hq])
      rcases Nat.eq_or_lt_of_le hmhi with heq | hlt
      · rw [ascRange_nil (m + 1) hi (by omega)] at hw
        have hbase : windLoop quiet confirm m 0 ([] : List ℕ) = m := rfl
        rw [hbase] at hw
        refine Or.inr ⟨?_, by omega⟩
        intro m' h1 h2
        rcases Nat.eq_or_lt_of_le h2 with he2 | h3
        · rw [← heq] at he2
          rw [he2]
          exact hnotm
        · exact hnoc m' h1 (by omega)
      · have ih := windLoop_asc_spec quiet confirm p hi hc (m + 1) 0
          (by omega) (by omega) (by omega) (by omega)
          (by intro j hj1 hj2; omega)
          (by
            refine Or.inr ?_
            have : m + 1 - 0 - 1 = m := by omega
            rw [this]
            exact hq)
          (by
            intro m' h1 h2
            rcases Nat.eq_or_lt_of_le (by omega : m' ≤ m) with he | hl
            · rw [he]; exact hnotm
            · exact hnoc m' h1 hl)
        have hstep : windLoop quiet confirm (m + 1 - 1) 0 (ascRange (m + 1) hi) =
            windLoop quiet confirm m 0 (ascRange (m + 1) hi) := by
          have : m + 1 - 1 = m := by omega
          rw [this]
        rw [hstep] at ih
        rw [hw]
        rcases ih with ⟨mstar, a1, a2, a3, a4, a5, a6⟩ | ⟨b1, b2⟩
        · exact Or.inl ⟨mstar, by omega, a2, a3, a4, a5, a6⟩
        · exact Or.inr ⟨b1, b2⟩
  termination_by m _ _ _ _ _ _ _ _ => hi - m

theorem getD_map_of_lt {α β : Type} (f : α → β) (l : List α) (k : ℕ)
    (hk : k < l.length) (d : β) (d' : α) :
    (l.map f).getD k d = f (l.getD k d') := by
  rw [List.getD_eq_getElem?_getD, List.getElem?_map, List.getD_eq_getElem?_getD,
    List.getElem?_eq_getElem hk]
  rfl

/-- The `k`-th range produced by `get_dynamic_segments`, written out. -/
theorem get_dynamic_segments_getD (peaks minutes : List ℕ) (b : ℚ)
    (buildup winddown : ℕ) (pre post : ℤ) (mult : ℚ) (confirm : ℕ)
    (k : ℕ) (hk : k < peaks.length) :
    (get_dynamic_segments peaks minutes b buildup winddown pre post mult confirm).getD k (0, 0) =
      ((fun (p : ℕ) =>
        (max ((minMinute minutes : ℤ) * 60)
          (min ((rampLoop (fun m => decide ((minutes.count m : ℚ) < qMul b mult)) p
              (descRange (p - 1) (max (minMinute minutes) (p - buildup))) : ℤ) * 60)
            ((p : ℤ) * 60 - pre)),
         max (((windLoop (fun m => decide ((minutes.count m : ℚ) < qMul b mult)) confirm p 0
              (ascRange (p + 1) (min (maxMinute minutes) (p + winddown))) : ℤ) + 1) * 60)
           ((p : ℤ) * 60 + post)))
        ((List.insertionSort (· ≤ ·) peaks).getD k 0)) := by
  rw [get_dynamic_segments]
  have hk' : k < (List.insertionSort (· ≤ ·) peaks).length := by
    rw [List.length_insertionSort]
    exact hk
  exact getD_map_of_lt _ _ k hk' (0, 0) 0

/-- Minute `m` is quiet: its activity count is below the threshold. -/
def QuietMin (minutes : List ℕ) (threshold : ℚ) (m : ℕ) : Prop :=
  (minutes.count m : ℚ) < threshold

/-- The quiet streak of length `confirm` ends at minute `m`: minutes
`m - confirm + 1, ..., m` are all quiet. -/
def ConfirmedAt (minutes : List ℕ) (threshold : ℚ) (confirm m : ℕ) : Prop :=
  ∀ j, m + 1 ≤ j + confirm → j ≤ m → QuietMin minutes threshold j

theorem quiet_true_iff (minutes : List ℕ) (b mult : ℚ) (j : ℕ) :
    (decide ((minutes.count j : ℚ) < qMul b mult) = true) ↔
      QuietMin minutes (b * mult) j := by
  rw [QuietMin, ← qMul_eq]
  exact decide_eq_true_iff

theorem confwin_iff (minutes : List ℕ) (b mult : ℚ) (confirm m : ℕ) :
    ConfWin (fun j => decide ((minutes.count j : ℚ) < qMul b mult)) confirm m ↔
      ConfirmedAt minutes (b * mult) confirm m := by
  refine forall_congr' fun j => ?_
  exact imp_congr_right fun _ => imp_congr_right fun _ => quiet_true_iff minutes b mult j

theorem rampLoop_entry_trivial (quiet : ℕ → Bool) (lo p : ℕ) (h : p ≤ lo) :
    rampLoop quiet p (descRange (p - 1) lo) = p := by
  rcases Nat.eq_zero_or_pos p with rfl | hp
  · rcases Nat.eq_zero_or_pos lo with rfl | hl
    · rw [descRange_cons 0 0 (le_refl 0)]
      simp only [Nat.sub_self, List.range'_zero, List.reverse_nil]
      cases hq : quiet 0 <;> simp [rampLoop, hq]
    · rw [descRange]
      have h1 : 0 - 1 + 1 - lo = 0 := by omega
      rw [h1]
      simp [rampLoop]
  · rw [descRange]
    have h1 : p - 1 + 1 - lo = 0 := by omega
    rw [h1]
    simp [rampLoop]

/-- C1 amended: for a peak `p` (the `k`-th sorted peak), with walk floor
`lo = max(min_minute, p - buildup_window)`, the start boundary chosen by
the backward walk is the first minute encountered going down from `p - 1`
whose activity is below `activity_threshold` — the walk keeps that first
quiet minute itself, not the last elevated minute — or `lo` if every
walked minute stays elevated, or `p` itself when the walk is empty; the
final start in seconds is `max(min_minute*60, min(start*60, p*60 -
min_pre_padding))` as the claim states. -/
theorem c1_start_expansion (peaks minutes : List ℕ) (b : ℚ)
    (buildup winddown : ℕ) (pre post : ℤ) (mult : ℚ) (confirm k p lo : ℕ)
    (hk : k < peaks.length)
    (hp : p = (List.insertionSort (· ≤ ·) peaks).getD k 0)
    (hlo : lo = max (minMinute minutes) (p - buildup)) :
    ∃ (s : ℕ) (e : ℤ),
      (get_dynamic_segments peaks minutes b buildup winddown pre post mult
          confirm).getD k (0, 0) =
        (max ((minMinute minutes : ℤ) * 60)
          (min ((s : ℤ) * 60) ((p : ℤ) * 60 - pre)), e) ∧
      (p ≤ lo → s = p) ∧
      (lo < p → lo ≤ s ∧ s < p ∧
        (∀ j, s < j → j < p → ¬ QuietMin minutes (b * mult) j) ∧
        (QuietMin minutes (b * mult) s ∨ s = lo)) := by
  rw [get_dynamic_segments_getD peaks minutes b buildup winddown pre post mult confirm k hk]
  dsimp only
  rw [← hp, ← hlo]
  refine ⟨rampLoop (fun m => decide ((minutes.count m : ℚ) < qMul b mult)) p
      (descRange (p - 1) lo), _, rfl, ?_, ?_⟩
  · intro hple
    exact rampLoop_entry_trivial _ lo p hple
  · intro hlt
    obtain ⟨⟨h1, h2⟩, h3, h4⟩ :=
      rampLoop_desc_spec (fun m => decide ((minutes.count m : ℚ) < qMul b mult))
        lo (p - 1) p (by omega)
    refine ⟨h1, by omega, ?_, ?_⟩
    · intro j hj1 hj2
      have := h3 j hj1 (by omega)
      intro hqj
      rw [← quiet_true_iff minutes b mult j] at hqj
      simp [this] at hqj
    · rcases h4 with h | h
      · exact Or.inl ((quiet_true_iff minutes b mult _).mp h)
      · exact Or.inr h

/-- The minute column of the C1 counterexample chat frame: one chat row
per minute 0-4 and 9-12, two rows in each of minutes 5-7, ten rows in
minute 8. -/
def c1Minutes : List ℕ :=
  [0, 1, 2, 3, 4, 5, 5, 6, 6, 7, 7, 8, 8, 8, 8, 8, 8, 8, 8, 8, 8, 9, 10, 11, 12]

/-- C1 counterexample: with baseline median 1, multiplier 1.5 (threshold
1.5) and peak minute 8, minutes 7, 6, 5 are elevated and minute 4 is
quiet, so the claim's walk ("earliest minute still `>= threshold`,
keeping the last elevated minute") stops at minute 5 and predicts a final
start of `max(0*60, min(5*60, 8*60 - 180)) = 300`; the code keeps the
quiet minute 4 itself and produces 240. -/
theorem c1_counterexample :
    get_dynamic_segments [8] c1Minutes 1 10 15 180 120 (Rat.divInt 3 2) 2 =
        [(240, 600)] ∧
      ¬ ((c1Minutes.count 5 : ℚ) < qMul 1 (Rat.divInt 3 2)) ∧
      ¬ ((c1Minutes.count 6 : ℚ) < qMul 1 (Rat.divInt 3 2)) ∧
      ¬ ((c1Minutes.count 7 : ℚ) < qMul 1 (Rat.divInt 3 2)) ∧
      ((c1Minutes.count 4 : ℚ) < qMul 1 (Rat.divInt 3 2)) ∧
      minMinute c1Minutes = 0 ∧
      (240 : ℤ) ≠ max ((minMinute c1Minutes : ℤ) * 60) (min ((5 : ℤ) * 60) (8 * 60 - 180)) := by
  decide

/-- Witness for C1 at the counterexample input (peak 8, walk floor 0). -/
theorem c1_witness :
    ∃ (s : ℕ) (e : ℤ),
      (get_dynamic_segments [8] c1Minutes 1 10 15 180 120 (Rat.divInt 3 2)
          2).getD 0 (0, 0) =
        (max ((minMinute c1Minutes : ℤ) * 60)
          (min ((s : ℤ) * 60) ((8 : ℤ) * 60 - 180)), e) ∧
      (8 ≤ 0 → s = 8) ∧
      (0 < 8 → 0 ≤ s ∧ s < 8 ∧
        (∀ j, s < j → j < 8 → ¬ QuietMin c1Minutes (1 * Rat.divInt 3 2) j) ∧
        (QuietMin c1Minutes (1 * Rat.divInt 3 2) s ∨ s = 0)) :=
  c1_start_expansion [8] c1Minutes 1 10 15 180 120 (Rat.divInt 3 2) 2 0 8 0
    (by decide) (by decide) (by decide)

/-- C5: for a peak `p` (the `k`-th sorted peak), the forward walk up to
`hi = min(max_minute, p + winddown_window)` tracks a consecutive quiet
streak; at the earliest minute `mstar` where the streak reaches
`drop_off_confirm_mins`, the end minute is set to the minute where that
quiet streak began, `mstar - confirm + 1`, so that the dynamic end in
seconds is `60 * (streak_begin + 1)` — the minute the streak began plus
one; when no streak is confirmed the end minute is `hi` (or `p` for an
empty walk); the final end in seconds is
`max(dynamic_end_seconds, p*60 + min_post_padding)`. -/
theorem c5_end_expansion (peaks minutes : List ℕ) (b : ℚ)
    (buildup winddown : ℕ) (pre post : ℤ) (mult : ℚ) (confirm k p hi : ℕ)
    (hk : k < peaks.length) (hc : 1 ≤ confirm)
    (hp : p = (List.insertionSort (· ≤ ·) peaks).getD k 0)
    (hhi : hi = min (maxMinute minutes) (p + winddown)) :
    ∃ (s : ℤ) (e : ℕ),
      (get_dynamic_segments peaks minutes b buildup winddown pre post mult
          confirm).getD k (0, 0) =
        (s, max (((e : ℤ) + 1) * 60) ((p : ℤ) * 60 + post)) ∧
      (hi ≤ p → e = p) ∧
      (p < hi →
        (∃ mstar, p + confirm ≤ mstar ∧ mstar ≤ hi ∧
            ConfirmedAt minutes (b * mult) confirm mstar ∧
            (∀ m', p + confirm ≤ m' → m' < mstar →
              ¬ ConfirmedAt minutes (b * mult) confirm m') ∧
            e = mstar - confirm + 1) ∨
          ((∀ m', p + confirm ≤ m' → m' ≤ hi →
              ¬ ConfirmedAt minutes (b * mult) confirm m') ∧ e = hi)) := by
  rw [get_dynamic_segments_getD peaks minutes b buildup winddown pre post mult confirm k hk]
  dsimp only
  rw [← hp, ← hhi]
  refine ⟨_, windLoop (fun m => decide ((minutes.count m : ℚ) < qMul b mult)) confirm p 0
      (ascRange (p + 1) hi), rfl, ?_, ?_⟩
  · intro hple
    rw [ascRange_nil (p + 1) hi (by omega)]
    rfl
  · intro hlt
    have hspec := windLoop_asc_spec
      (fun m => decide ((minutes.count m : ℚ) < qMul b mult)) confirm p hi hc
      (p + 1) 0 (le_refl _) (by omega) (by omega) (by omega)
      (by intro j h1 h2; omega)
      (Or.inl (by omega))
      (by intro m' h1 h2 hcw; omega)
    have hstep : p + 1 - 1 = p := by omega
    rw [hstep] at hspec
    rcases hspec with ⟨mstar, a1, a2, a3, a4, a5, a6⟩ | ⟨b1, b2⟩
    · refine Or.inl ⟨mstar, a3, a2, (confwin_iff minutes b mult confirm mstar).mp a4, ?_, a6⟩
      intro m' h1 h2 hca
      exact a5 m' h1 h2 ((confwin_iff minutes b mult confirm m').mpr hca)
    · refine Or.inr ⟨?_, b2⟩
      intro m' h1 h2 hca
      exact b1 m' h1 h2 ((confwin_iff minutes b mult confirm m').mpr hca)

/-- Witness for C5 at the C1 counterexample input: peak 8, walk ceiling
12, confirmation parameter 2. -/
theorem c5_witness :
    ∃ (s : ℤ) (e : ℕ),
      (get_dynamic_segments [8] c1Minutes 1 10 15 180 120 (Rat.divInt 3 2)
          2).getD 0 (0, 0) =
        (s, max (((e : ℤ) + 1) * 60) ((8 : ℤ) * 60 + 120)) ∧
      (12 ≤ 8 → e = 8) ∧
      (8 < 12 →
        (∃ mstar, 8 + 2 ≤ mstar ∧ mstar ≤ 12 ∧
            ConfirmedAt c1Minutes (1 * Rat.divInt 3 2) 2 mstar ∧
            (∀ m', 8 + 2 ≤ m' → m' < mstar →
              ¬ ConfirmedAt c1Minutes (1 * Rat.divInt 3 2) 2 m') ∧
            e = mstar - 2 + 1) ∨
          ((∀ m', 8 + 2 ≤ m' → m' ≤ 12 →
              ¬ ConfirmedAt c1Minutes (1 * Rat.divInt 3 2) 2 m') ∧ e = 12)) :=
  c5_end_expansion [8] c1Minutes 1 10 15 180 120 (Rat.divInt 3 2) 2 0 8 12
    (by decide) (by decide) (by decide) (by decide)

/-- C7: the pipeline returns its empty-collection identity instead of
raising: `process_chat_signals` returns `[]` on an empty event list
(short-circuiting before any later stage) and returns `[]` as soon as
peak detection yields no highlight minutes; and the MAD detector returns
an empty peak sequence on the empty series and on every constant series,
for every threshold multiplier. -/
theorem c7_empty_degenerate :
    (∀ (sent : String → ℚ) (aw sw tm : ℚ),
        process_chat_signals sent [] aw sw tm = []) ∧
      (∀ (sent : String → ℚ) (events : List ChatEvent) (aw sw tm : ℚ),
        highlight_minutes sent events aw sw tm = [] →
        process_chat_signals sent events aw sw tm = []) ∧
      (∀ mult : ℚ, (detect_mad_peaks [] mult).1 = []) ∧
      (∀ (counts : List ℚ) (c mult : ℚ), (∀ a ∈ counts, a = c) →
        (detect_mad_peaks counts mult).1 = []) := by
  refine ⟨fun sent aw sw tm => rfl, ?_, fun mult => rfl, ?_⟩
  · intro sent events aw sw tm h
    rw [process_chat_signals]
    split
    · rfl
    · dsimp only
      rw [if_pos h]
  · intro counts c mult hconst
    show find_peaks counts _ = []
    rw [find_peaks]
    have hnone : localMaxima counts = [] := by
      rw [localMaxima, List.filterMap_eq_nil_iff]
      intro l hl
      rw [isPeakAt]
      split
      · rename_i hb
        rw [if_neg]
        intro hrise
        have h1 : counts.getD (l - 1) 0 = c := by
          rw [List.getD_eq_getElem counts 0 (by omega)]
          exact hconst _ (List.getElem_mem _)
        have h2 : counts.getD l 0 = c := by
          rw [List.getD_eq_getElem counts 0 (by omega)]
          exact hconst _ (List.getElem_mem _)
        rw [h1, h2] at hrise
        exact lt_irrefl c hrise
      · rfl
    rw [hnone]
    rfl

/-- Witness for C7: a one-event chat frame with a constant sentiment
model produces no highlight minutes, hence an empty range list, and the
constant series `[3, 3, 3]` yields no peaks. -/
theorem c7_witness :
    process_chat_signals (fun _ => 0) [⟨0, "hi"⟩] 1 1 1 = [] ∧
      (detect_mad_peaks [3, 3, 3] 2).1 = [] :=
  ⟨c7_empty_degenerate.2.1 (fun _ => 0) [⟨0, "hi"⟩] 1 1 1 (by decide),
    c7_empty_degenerate.2.2.2 [3, 3, 3] 3 2 (by decide)⟩
